import Mathlib

/-!
Verification of the Hyperband hyperparameter search core in
src/neural/handwriting/hyperband/hyperband.py (the scenario-5 block of the
main program, lines 310-403).

The script is Python 2 code (it opens files with buffering 0 and branches on
sys.version_info), so division of two Python ints is integer floor division.
Numeric quantities that the script holds in floats (budgets, losses,
accuracies, times) are modelled by exact rationals, and the transcendental
transforms of the configuration sampler (log, pow with real exponents) are
modelled over the reals.  The evaluator main(...) and the random sampler are
external collaborators: they are abstracted as an arbitrary loss function per
rung and an arbitrary initial pool.  np.argsort (default kind quicksort,
which numpy does not document as stable) is constrained only by its sorting
contract IsArgsortOf: it returns some permutation of the indices along which
the losses are ascending; a stable reference argsort (ties broken by index)
is defined separately to express the spec-side ranking, and the pool-size
results depend only on the permutation property, which every kind satisfies.
-/

namespace Hyperband

/-- Maximum number of iterations (seconds) per configuration, line 347. -/
def max_iter : ℕ := 60

/-- Downsampling rate, line 348. -/
def eta : ℕ := 3

/-- Exact value of the floor of log(m)/log(e), the quantity computed by
int(logeta(max_iter)) at line 350. -/
noncomputable def logetaFloor (e m : ℕ) : ℤ := ⌊Real.log m / Real.log e⌋

/-- Number of unique halvings, line 350.  Nat.log is the exact value of the
float computation int(log(60)/log(3)); the bridge is proved below. -/
def s_max : ℕ := Nat.log eta max_iter

/-- Total number of iterations without reuse per execution of halving,
line 351. -/
def B : ℕ := (s_max + 1) * max_iter

/-- Initial number of configurations for bracket s, line 358.  B, max_iter
and s+1 are Python 2 ints, so both divisions are integer floor divisions,
and int(math.ceil(...)) of the resulting int is the identity. -/
def n (s : ℕ) : ℕ := B / max_iter / (s + 1) * eta ^ s

/-- Initial budget for bracket s, line 359: the exact rational value of
max_iter * eta ** (-s). -/
def r (s : ℕ) : ℚ := max_iter * ((eta : ℚ))⁻¹ ^ s

/-- Value of ceil(B / max_iter / (s+1) * eta^s) under real-valued
arithmetic, which is how the spec describes line 358. -/
def n_spec (s : ℕ) : ℤ := ⌈(B : ℚ) / max_iter / (s + 1) * (eta : ℚ) ^ s⌉

theorem s_max_eq : s_max = 3 :=
  Nat.log_eq_of_pow_le_of_lt_pow (by decide) (by decide)

theorem B_eq : B = 240 := by
  show (s_max + 1) * max_iter = 240
  rw [s_max_eq]
  decide

theorem n_vals : n 0 = 4 ∧ n 1 = 6 ∧ n 2 = 9 ∧ n 3 = 27 := by
  refine ⟨?_, ?_, ?_, ?_⟩ <;> · show B / max_iter / _ * eta ^ _ = _; rw [B_eq]; decide

theorem r_vals : r 0 = 60 ∧ r 3 = 60 / 27 := by
  constructor <;> · show (max_iter : ℚ) * _ ^ _ = _; norm_num [max_iter, eta]

theorem n_spec_vals : n_spec 0 = 4 ∧ n_spec 1 = 6 ∧ n_spec 2 = 12 ∧ n_spec 3 = 27 := by
  have hB : (B : ℚ) = 240 := by rw [B_eq]; norm_num
  refine ⟨?_, ?_, ?_, ?_⟩ <;>
    · show (⌈(B : ℚ) / max_iter / _ * (eta : ℚ) ^ _⌉ : ℤ) = _
      rw [hB]; norm_num [max_iter, eta]

/-- C1 counterexample: at bracket s = 2 the script computes
n = (240/60/3)*9 = 9 with Python 2 integer division, while the
real-valued formula ceil(240/60/3*9) of the claim yields 12. -/
theorem n_real_ceil_cx : (n 2 : ℤ) ≠ n_spec 2 := by
  rw [n_vals.2.2.1, n_spec_vals.2.2.1]
  decide

/-- C1 (amended): for every bracket s from s_max down to 0 the outer loop
computes n = (B // max_iter // (s+1)) * eta^s with integer floor division
and r = max_iter * eta^(-s); this agrees with the real-valued ceil formula
whenever (s+1) divides B // max_iter, and for eta=3, max_iter=60 it gives
n = 27, 9, 6, 4 for s = 3, 2, 1, 0, with r = 60/27 for s=3 and r = 60 for
s=0. -/
theorem bracket_counts_floor_div :
    (n 3 = 27 ∧ n 2 = 9 ∧ n 1 = 6 ∧ n 0 = 4) ∧
    (r 3 = 60 / 27 ∧ r 0 = 60) ∧
    (∀ s : ℕ, s ≤ s_max → (s + 1) ∣ B / max_iter → (n s : ℤ) = n_spec s) := by
  refine ⟨⟨n_vals.2.2.2, n_vals.2.2.1, n_vals.2.1, n_vals.1⟩,
    ⟨r_vals.2, r_vals.1⟩, ?_⟩
  intro s hs hdvd
  rw [s_max_eq] at hs
  rw [B_eq] at hdvd
  interval_cases s
  · rw [n_vals.1, n_spec_vals.1]; decide
  · rw [n_vals.2.1, n_spec_vals.2.1]; decide
  · exact absurd hdvd (by decide)
  · rw [n_vals.2.2.2, n_spec_vals.2.2.2]; decide

/-- Witness for the amended C1 at the concrete bracket s = 3. -/
theorem bracket_counts_floor_div_w :
    (3 ≤ s_max ∧ (3 + 1) ∣ B / max_iter) ∧ (n 3 : ℤ) = n_spec 3 :=
  ⟨⟨by rw [s_max_eq], by rw [B_eq]; decide⟩,
    bracket_counts_floor_div.2.2 3 (by rw [s_max_eq]) (by rw [B_eq]; decide)⟩

/-- C4: for all natural eta > 1 and max_iter >= 1, the floor of
log(max_iter)/log(eta) equals Nat.log and is non-negative, and
B = (s_max+1)*max_iter is positive; for eta=3, max_iter=60 the script
obtains s_max = 3 and B = 240. -/
theorem s_max_floor_log_nonneg :
    (∀ e m : ℕ, 2 ≤ e → 1 ≤ m →
      logetaFloor e m = Nat.log e m ∧ 0 ≤ logetaFloor e m ∧
        0 < (Nat.log e m + 1) * m) ∧
    logetaFloor eta max_iter = s_max ∧ s_max = 3 ∧ B = 240 := by
  have bridge : ∀ e m : ℕ, 2 ≤ e → 1 ≤ m → logetaFloor e m = Nat.log e m := by
    intro e m he hm
    have h1 : e ^ Nat.log e m ≤ m := Nat.pow_log_le_self e (by omega)
    have h2 : m < e ^ (Nat.log e m + 1) := Nat.lt_pow_succ_log_self (by omega) m
    have he1 : (1 : ℝ) < (e : ℝ) := by exact_mod_cast (by omega : 1 < e)
    have hle : (0 : ℝ) < Real.log e := Real.log_pos he1
    have hepos : (0 : ℝ) < (e : ℝ) ^ (Nat.log e m) := by positivity
    have hlow : (Nat.log e m : ℝ) * Real.log e ≤ Real.log m := by
      rw [← Real.log_pow]
      exact Real.log_le_log hepos (by exact_mod_cast h1)
    have hmpos : (0 : ℝ) < (m : ℝ) := by exact_mod_cast (by omega : 0 < m)
    have hup : Real.log m < ((Nat.log e m : ℝ) + 1) * Real.log e := by
      have hlt : Real.log m < Real.log ((e : ℝ) ^ (Nat.log e m + 1)) :=
        Real.log_lt_log hmpos (by exact_mod_cast h2)
      rw [Real.log_pow] at hlt
      push_cast at hlt
      linarith
    show (⌊Real.log m / Real.log e⌋ : ℤ) = _
    rw [Int.floor_eq_iff]
    constructor
    · rw [le_div_iff₀ hle]
      push_cast
      exact hlow
    · rw [div_lt_iff₀ hle]
      push_cast
      exact hup
  refine ⟨fun e m he hm => ⟨bridge e m he hm, ?_, ?_⟩, ?_, s_max_eq, B_eq⟩
  · rw [bridge e m he hm]
    exact Int.natCast_nonneg _
  · positivity
  · rw [bridge eta max_iter (by decide) (by decide)]
    rfl

/-- Witness for C4 at the concrete parameters eta = 3 and max_iter = 60. -/
theorem s_max_floor_log_nonneg_w :
    2 ≤ eta ∧ 1 ≤ max_iter ∧
      (logetaFloor eta max_iter = Nat.log eta max_iter ∧
        0 ≤ logetaFloor eta max_iter ∧
        0 < (Nat.log eta max_iter + 1) * max_iter) :=
  ⟨by decide, by decide,
    s_max_floor_log_nonneg.1 eta max_iter (by decide) (by decide)⟩

/-- Ascending order on indices of a loss list with ties broken by index:
the order of the stable reference argsort used to express the ranking that
the spec asserts.  np.argsort itself is constrained only by the contract
IsArgsortOf below, since its default kind quicksort does not guarantee any
tie order. -/
def argsortRel (l : List ℚ) (i j : ℕ) : Prop :=
  l.getD i 0 < l.getD j 0 ∨ (l.getD i 0 = l.getD j 0 ∧ i ≤ j)

instance argsortRel_dec (l : List ℚ) : DecidableRel (argsortRel l) := fun i j =>
  decidable_of_iff (l.getD i 0 < l.getD j 0 ∨ (l.getD i 0 = l.getD j 0 ∧ i ≤ j)) Iff.rfl

/-- Stable reference argsort: the unique index permutation that sorts the
losses ascending and breaks ties by index.  One of the permutations
np.argsort may return, but not necessarily the one it does return. -/
def argsort (l : List ℚ) : List ℕ :=
  List.insertionSort (argsortRel l) (List.range l.length)

/-- Pruning at line 400, Tr = [ Tr[i] for i in np.argsort(val_losses)[0:k] ],
under the resolution in which np.argsort returns the stable reference
permutation.  keepWith below is the same pruning for an arbitrary index list,
covering every output np.argsort may produce; the pool-size theorems use
keep only through properties shared by all of them. -/
def keep {α : Type} (k : ℕ) (losses : List ℚ) (pool : List α) : List α :=
  ((argsort losses).take k).filterMap (fun i => pool[i]?)

/-- Pruning at line 400 for an arbitrary index list p in place of the
np.argsort result: Tr = [ Tr[i] for i in p[0:k] ]. -/
def keepWith {α : Type} (k : ℕ) (p : List ℕ) (pool : List α) : List α :=
  (p.take k).filterMap (fun i => pool[i]?)

/-- Contract of np.argsort(l) for every sort kind: the result is a
permutation of the indices of l along which the values of l are ascending.
The default kind quicksort guarantees nothing more; in particular it does
not fix the relative order of tied values. -/
def IsArgsortOf (l : List ℚ) (p : List ℕ) : Prop :=
  p.Perm (List.range l.length) ∧
    (p.map (fun i => l.getD i 0)).Sorted (· ≤ ·)

/-- Configuration count target of rung i, line 365: exact value of
n * eta ** (-i). -/
def n_i (s i : ℕ) : ℚ := (n s : ℚ) * ((eta : ℚ))⁻¹ ^ i

/-- Budget of rung i, line 366: exact value of r * eta ** i. -/
def r_i (s i : ℕ) : ℚ := r s * (eta : ℚ) ^ i

/-- Number of survivors kept by rung i of bracket s: int(n_i / eta) at
line 400; the value is non-negative, so Python int() truncation is the
floor. -/
def keepCount (s i : ℕ) : ℕ := (⌊n_i s i / (eta : ℚ)⌋).toNat

/-- One rung, lines 363-400: evaluate every configuration of the current
pool with the loss function of this rung, record all losses in order, and
keep the best k by argsort.  The state is (surviving pool, recorded
losses). -/
def runRung {α : Type} (L : α → ℚ) (k : ℕ) (st : List α × List ℚ) :
    List α × List ℚ :=
  (keep k (st.1.map L) st.1, st.2 ++ st.1.map L)

/-- Iterated rungs: ks lists the survivor counts of successive rungs and i0
is the index of the first rung; L i gives the loss of a configuration when
evaluated at the budget of rung i (the evaluator is an external collaborator
and is abstracted by L). -/
def runHalving {α : Type} (L : ℕ → α → ℚ) (i0 : ℕ) (ks : List ℕ)
    (st : List α × List ℚ) : List α × List ℚ :=
  match ks with
  | [] => st
  | k :: rest => runHalving L (i0 + 1) rest (runRung (L i0) k st)

/-- Survivor counts of bracket s: rung i runs over range(s+1) and keeps
int(n_i/eta) configurations. -/
def bracketKs (s : ℕ) : List ℕ := (List.range (s + 1)).map (keepCount s)

/-- Finite-horizon successive halving for bracket s, lines 361-401, starting
from the pool of freshly sampled configurations. -/
def runBracket {α : Type} (L : ℕ → α → ℚ) (s : ℕ) (pool0 : List α) :
    List α × List ℚ :=
  runHalving L 0 (bracketKs s) (pool0, [])

/-- Pool surviving after the first j rungs of bracket s. -/
def poolAfter {α : Type} (L : ℕ → α → ℚ) (s : ℕ) (pool0 : List α) (j : ℕ) :
    List α :=
  (runHalving L 0 ((bracketKs s).take j) (pool0, [])).1

theorem n_i_vals :
    n_i 0 0 = 4 ∧ (n_i 1 0 = 6 ∧ n_i 1 1 = 2) ∧
    (n_i 2 0 = 9 ∧ n_i 2 1 = 3 ∧ n_i 2 2 = 1) ∧
    (n_i 3 0 = 27 ∧ n_i 3 1 = 9 ∧ n_i 3 2 = 3 ∧ n_i 3 3 = 1) := by
  refine ⟨?_, ⟨?_, ?_⟩, ⟨?_, ?_, ?_⟩, ⟨?_, ?_, ?_, ?_⟩⟩ <;>
    · show (n _ : ℚ) * _ ^ _ = _
      first
      | rw [n_vals.1] | rw [n_vals.2.1] | rw [n_vals.2.2.1] | rw [n_vals.2.2.2]
      norm_num [eta]

theorem keepCount_vals :
    keepCount 0 0 = 1 ∧ (keepCount 1 0 = 2 ∧ keepCount 1 1 = 0) ∧
    (keepCount 2 0 = 3 ∧ keepCount 2 1 = 1 ∧ keepCount 2 2 = 0) ∧
    (keepCount 3 0 = 9 ∧ keepCount 3 1 = 3 ∧ keepCount 3 2 = 1 ∧
      keepCount 3 3 = 0) := by
  obtain ⟨a, ⟨b1, b2⟩, ⟨c1, c2, c3⟩, ⟨d1, d2, d3, d4⟩⟩ := n_i_vals
  refine ⟨?_, ⟨?_, ?_⟩, ⟨?_, ?_, ?_⟩, ⟨?_, ?_, ?_, ?_⟩⟩ <;>
    · show (⌊n_i _ _ / (eta : ℚ)⌋).toNat = _
      first
      | rw [a] | rw [b1] | rw [b2] | rw [c1] | rw [c2] | rw [c3]
      | rw [d1] | rw [d2] | rw [d3] | rw [d4]
      norm_num [eta] <;> decide

theorem bracketKs_vals :
    bracketKs 0 = [1] ∧ bracketKs 1 = [2, 0] ∧ bracketKs 2 = [3, 1, 0] ∧
      bracketKs 3 = [9, 3, 1, 0] := by
  obtain ⟨a, ⟨b1, b2⟩, ⟨c1, c2, c3⟩, ⟨d1, d2, d3, d4⟩⟩ := keepCount_vals
  refine ⟨?_, ?_, ?_, ?_⟩ <;>
    simp [bracketKs, List.range_succ, a, b1, b2, c1, c2, c3, d1, d2, d3, d4]

theorem argsort_perm (l : List ℚ) : (argsort l).Perm (List.range l.length) :=
  List.perm_insertionSort _ _

theorem mem_argsort_lt {l : List ℚ} {i : ℕ} (h : i ∈ argsort l) :
    i < l.length := by
  have := (argsort_perm l).mem_iff.mp h
  simpa using this

theorem filterMap_length_of_valid {α : Type} (idxs : List ℕ) (pool : List α)
    (h : ∀ i ∈ idxs, i < pool.length) :
    (idxs.filterMap (fun i => pool[i]?)).length = idxs.length := by
  induction idxs with
  | nil => rfl
  | cons a as ih =>
    rw [List.filterMap_cons, List.getElem?_eq_getElem (h a (by simp))]
    simp only [List.length_cons]
    rw [ih (fun i hi => h i (by simp [hi]))]

theorem keep_length {α : Type} (k : ℕ) (losses : List ℚ) (pool : List α)
    (hlen : losses.length = pool.length) :
    (keep k losses pool).length = min k pool.length := by
  unfold keep
  rw [filterMap_length_of_valid _ _
    (fun i hi => hlen ▸ mem_argsort_lt (List.mem_of_mem_take hi))]
  rw [List.length_take]
  unfold argsort
  rw [(List.perm_insertionSort _ _).length_eq, List.length_range, hlen]

theorem runHalving_fst_length {α : Type} (L : ℕ → α → ℚ) (ks : List ℕ) :
    ∀ (i0 : ℕ) (st : List α × List ℚ),
      (runHalving L i0 ks st).1.length =
        ks.foldl (fun m k => min k m) st.1.length := by
  induction ks with
  | nil => intro i0 st; rfl
  | cons k rest ih =>
    intro i0 st
    show (runHalving L (i0 + 1) rest (runRung (L i0) k st)).1.length = _
    rw [ih]
    have : (runRung (L i0) k st).1.length = min k st.1.length :=
      keep_length k _ st.1 (by simp)
    rw [this]
    rfl

/-- C3 counterexample: in the bracket s = 1 (n = 6 configurations), the
pruning that ends the final rung keeps int(n_1/eta) = 0 configurations, so
the pool after the final rung is empty and no best configuration remains in
it; the script also never returns a per-bracket result to the outer loop. -/
theorem final_rung_pool_empty_cx :
    (runBracket (fun _ _ => (0 : ℚ)) 1 (List.range (n 1))).1 = ([] : List ℕ) := by
  show (runHalving _ 0 (bracketKs 1) (List.range (n 1), [])).1 = _
  rw [bracketKs_vals.2.1, n_vals.2.1]
  decide

/-- C3 (amended): a bracket communicates with the outer loop only through
the global best tracker and log; the pool left after the final rung (whose
own pruning has already run) holds int(n_s/eta) configurations, namely a
single configuration for bracket s = 0 and none for brackets s = 1, 2, 3. -/
theorem final_rung_pool_sizes {α : Type} (L : ℕ → α → ℚ)
    (p0 p1 p2 p3 : List α) (h0 : p0.length = n 0) (h1 : p1.length = n 1)
    (h2 : p2.length = n 2) (h3 : p3.length = n 3) :
    (runBracket L 0 p0).1.length = 1 ∧ (runBracket L 1 p1).1.length = 0 ∧
    (runBracket L 2 p2).1.length = 0 ∧ (runBracket L 3 p3).1.length = 0 := by
  refine ⟨?_, ?_, ?_, ?_⟩ <;>
    · show (runHalving _ 0 (bracketKs _) (_, [])).1.length = _
      rw [runHalving_fst_length]
      first
      | rw [h0, bracketKs_vals.1, n_vals.1]
      | rw [h1, bracketKs_vals.2.1, n_vals.2.1]
      | rw [h2, bracketKs_vals.2.2.1, n_vals.2.2.1]
      | rw [h3, bracketKs_vals.2.2.2, n_vals.2.2.2]
      decide

/-- Witness for the amended C3 with concrete pools of the right sizes. -/
theorem final_rung_pool_sizes_w :
    ((List.range 4).length = n 0 ∧ (List.range 6).length = n 1 ∧
      (List.range 9).length = n 2 ∧ (List.range 27).length = n 3) ∧
    ((runBracket (fun _ _ => (0 : ℚ)) 0 (List.range 4)).1.length = 1 ∧
      (runBracket (fun _ _ => (0 : ℚ)) 1 (List.range 6)).1.length = 0 ∧
      (runBracket (fun _ _ => (0 : ℚ)) 2 (List.range 9)).1.length = 0 ∧
      (runBracket (fun _ _ => (0 : ℚ)) 3 (List.range 27)).1.length = 0) :=
  ⟨⟨by rw [List.length_range, n_vals.1], by rw [List.length_range, n_vals.2.1],
    by rw [List.length_range, n_vals.2.2.1],
    by rw [List.length_range, n_vals.2.2.2]⟩,
    final_rung_pool_sizes _ _ _ _ _
      (by rw [List.length_range, n_vals.1])
      (by rw [List.length_range, n_vals.2.1])
      (by rw [List.length_range, n_vals.2.2.1])
      (by rw [List.length_range, n_vals.2.2.2])⟩

/-- C5: a pruning that keeps zero survivors yields the empty pool, and this
is not an error: once the surviving pool is empty, all remaining scheduled
rungs evaluate no configuration and leave the recorded losses and the pool
unchanged; the run is a total function, so iterating the remaining rungs
over the empty pool causes no out-of-range access. -/
theorem empty_pool_no_evals {α : Type} (L : ℕ → α → ℚ) (i0 : ℕ)
    (ks : List ℕ) (evs losses : List ℚ) (pool : List α) :
    keep 0 losses pool = ([] : List α) ∧
    runHalving L i0 ks (([] : List α), evs) = ([], evs) := by
  refine ⟨rfl, ?_⟩
  induction ks generalizing i0 with
  | nil => rfl
  | cons k rest ih =>
    show runHalving L (i0 + 1) rest (runRung (L i0) k ([], evs)) = _
    have hstep : runRung (L i0) k (([] : List α), evs) = ([], evs) := by
      simp [runRung, keep, argsort]
    rw [hstep]
    exact ih (i0 + 1)

/-- C7: within every bracket of the search, the surviving pool size never
increases from one rung to the next, and it strictly decreases after any
rung with n_i / eta >= 1 (with these parameters it in fact strictly
decreases after every rung). -/
theorem pool_size_decreasing {α : Type} (L : ℕ → α → ℚ) (pool0 : List α)
    (s i : ℕ) (hs : s ≤ s_max) (hi : i ≤ s) (hlen : pool0.length = n s) :
    (poolAfter L s pool0 (i + 1)).length ≤ (poolAfter L s pool0 i).length ∧
    (1 ≤ n_i s i / (eta : ℚ) →
      (poolAfter L s pool0 (i + 1)).length < (poolAfter L s pool0 i).length) := by
  rw [s_max_eq] at hs
  have hsz : ∀ j, (poolAfter L s pool0 j).length =
      ((bracketKs s).take j).foldl (fun m k => min k m) (n s) := by
    intro j
    unfold poolAfter
    rw [runHalving_fst_length, hlen]
  have key : ((bracketKs s).take (i + 1)).foldl (fun m k => min k m) (n s) <
      ((bracketKs s).take i).foldl (fun m k => min k m) (n s) := by
    interval_cases s <;> interval_cases i <;>
      · simp only [bracketKs_vals.1, bracketKs_vals.2.1, bracketKs_vals.2.2.1,
          bracketKs_vals.2.2.2, n_vals.1, n_vals.2.1, n_vals.2.2.1,
          n_vals.2.2.2]
        decide
  rw [hsz (i + 1), hsz i]
  exact ⟨key.le, fun _ => key⟩

/-- Witness for C7 at bracket s = 3, rung 0. -/
theorem pool_size_decreasing_w :
    (3 ≤ s_max ∧ (0 : ℕ) ≤ 3 ∧ (List.range 27).length = n 3) ∧
    ((poolAfter (fun _ _ => (0 : ℚ)) 3 (List.range 27) 1).length ≤
        (poolAfter (fun _ _ => (0 : ℚ)) 3 (List.range 27) 0).length ∧
      (1 ≤ n_i 3 0 / (eta : ℚ) →
        (poolAfter (fun _ _ => (0 : ℚ)) 3 (List.range 27) 1).length <
          (poolAfter (fun _ _ => (0 : ℚ)) 3 (List.range 27) 0).length)) :=
  ⟨⟨by rw [s_max_eq], by decide, by rw [List.length_range, n_vals.2.2.2]⟩,
    pool_size_decreasing (fun _ _ => (0 : ℚ)) (List.range 27) 3 0
      (by rw [s_max_eq]) (by decide)
      (by rw [List.length_range, n_vals.2.2.2])⟩

/-- Ascending order on (original index, loss, configuration) triples used by
the spec description of pruning: rank by loss, break ties by original sample
order. -/
def pairRel {α : Type} (a b : ℕ × ℚ × α) : Prop :=
  a.2.1 < b.2.1 ∨ (a.2.1 = b.2.1 ∧ a.1 ≤ b.1)

instance pairRel_dec {α : Type} : DecidableRel (@pairRel α) := fun a b =>
  decidable_of_iff (a.2.1 < b.2.1 ∨ (a.2.1 = b.2.1 ∧ a.1 ≤ b.1)) Iff.rfl

/-- Pruning as the spec words it: pair every configuration of the pool with
its loss and its original sample index, rank ascending by loss with ties
broken by original index (a stable sort), keep the first k, and return the
configurations. -/
def specKeep {α : Type} (k : ℕ) (losses : List ℚ) (pool : List α) : List α :=
  ((List.insertionSort pairRel (losses.zip pool).enum).take k).map
    (fun p => p.2.2)

/-- Survivor count as the claim words it: floor(n_i / eta) with
n_i = round(n * eta^(-i)). -/
def specCount (s i : ℕ) : ℕ := (⌊(round (n_i s i) : ℚ) / (eta : ℚ)⌋).toNat

theorem filterMap_eq_map_getD {α : Type} [Inhabited α] (idxs : List ℕ)
    (pool : List α) (h : ∀ i ∈ idxs, i < pool.length) :
    idxs.filterMap (fun i => pool[i]?) =
      idxs.map (fun i => pool.getD i default) := by
  induction idxs with
  | nil => rfl
  | cons a as ih =>
    have ha : a < pool.length := h a (by simp)
    rw [List.filterMap_cons_some (List.getElem?_eq_getElem ha), List.map_cons,
      ih (fun i hi => h i (by simp [hi]))]
    congr 1
    simp [List.getD, List.getElem?_eq_getElem ha]

theorem keep_eq_specKeep {α : Type} [Inhabited α] (k : ℕ) (losses : List ℚ)
    (pool : List α) (hlen : losses.length = pool.length) :
    keep k losses pool = specKeep k losses pool := by
  have henum : (losses.zip pool).enum = (List.range losses.length).map
      (fun idx => (idx, losses.getD idx 0, pool.getD idx default)) := by
    apply List.ext_getElem
    · simp [hlen]
    · intro i h1 h2
      have hi1 : i < losses.length := by simpa [hlen] using h1
      have hi2 : i < pool.length := hlen ▸ hi1
      simp only [List.getElem_enum, List.getElem_zip, List.getElem_map,
        List.getElem_range]
      simp [List.getD, List.getElem?_eq_getElem hi1,
        List.getElem?_eq_getElem hi2]
  have hmap : (List.insertionSort (argsortRel losses)
        (List.range losses.length)).map
        (fun idx => (idx, losses.getD idx 0, pool.getD idx default)) =
      List.insertionSort pairRel ((List.range losses.length).map
        (fun idx => (idx, losses.getD idx 0, pool.getD idx default))) :=
    List.map_insertionSort (argsortRel losses) pairRel _ _
      (fun a _ b _ => Iff.rfl)
  unfold specKeep
  rw [henum, ← hmap, ← List.map_take, List.map_map]
  show ((argsort losses).take k).filterMap (fun i => pool[i]?) = _
  rw [filterMap_eq_map_getD _ _
    (fun i hi => hlen ▸ mem_argsort_lt (List.mem_of_mem_take hi))]
  rfl

theorem specCount_eq_keepCount (s i : ℕ) (hs : s ≤ 3) (hi : i ≤ s) :
    specCount s i = keepCount s i := by
  interval_cases s <;> interval_cases i <;>
    · show (⌊(round (n_i _ _) : ℚ) / (eta : ℚ)⌋).toNat = keepCount _ _
      rw [round_eq]
      first
      | rw [n_i_vals.1] | rw [n_i_vals.2.1.1] | rw [n_i_vals.2.1.2]
      | rw [n_i_vals.2.2.1.1] | rw [n_i_vals.2.2.1.2.1]
      | rw [n_i_vals.2.2.1.2.2] | rw [n_i_vals.2.2.2.1]
      | rw [n_i_vals.2.2.2.2.1] | rw [n_i_vals.2.2.2.2.2.1]
      | rw [n_i_vals.2.2.2.2.2.2]
      first
      | rw [keepCount_vals.1] | rw [keepCount_vals.2.1.1]
      | rw [keepCount_vals.2.1.2] | rw [keepCount_vals.2.2.1.1]
      | rw [keepCount_vals.2.2.1.2.1] | rw [keepCount_vals.2.2.1.2.2]
      | rw [keepCount_vals.2.2.2.1] | rw [keepCount_vals.2.2.2.2.1]
      | rw [keepCount_vals.2.2.2.2.2.1] | rw [keepCount_vals.2.2.2.2.2.2]
      norm_num [eta] <;> decide

instance argsortRel_total (l : List ℚ) : IsTotal ℕ (argsortRel l) := by
  constructor
  intro i j
  rcases lt_trichotomy (l.getD i 0) (l.getD j 0) with h | h | h
  · exact Or.inl (Or.inl h)
  · rcases le_total i j with hij | hij
    · exact Or.inl (Or.inr ⟨h, hij⟩)
    · exact Or.inr (Or.inr ⟨h.symm, hij⟩)
  · exact Or.inr (Or.inl h)

instance argsortRel_trans (l : List ℚ) : IsTrans ℕ (argsortRel l) := by
  constructor
  intro a b c hab hbc
  rcases hab with h1 | ⟨h1, h1i⟩ <;> rcases hbc with h2 | ⟨h2, h2i⟩
  · exact Or.inl (h1.trans h2)
  · exact Or.inl (by rw [← h2]; exact h1)
  · exact Or.inl (by rw [h1]; exact h2)
  · exact Or.inr ⟨h1.trans h2, h1i.trans h2i⟩

theorem range_map_getD (l : List ℚ) :
    (List.range l.length).map (fun i => l.getD i 0) = l := by
  apply List.ext_getElem (by simp)
  intro i h1 h2
  simp only [List.getElem_map, List.getElem_range]
  rw [List.getD_eq_getElem l 0 h2]

theorem argsort_map_sorted (l : List ℚ) :
    ((argsort l).map (fun i => l.getD i 0)).Sorted (· ≤ ·) := by
  have hs : (argsort l).Sorted (argsortRel l) :=
    List.sorted_insertionSort _ _
  exact List.Pairwise.map _ (fun a b hab => by
    rcases hab with h | ⟨h, _⟩
    · exact le_of_lt h
    · exact le_of_eq h) hs

/-- The stable reference argsort satisfies the np.argsort contract. -/
theorem argsort_isArgsortOf (l : List ℚ) : IsArgsortOf l (argsort l) :=
  ⟨argsort_perm l, argsort_map_sorted l⟩

theorem isArgsortOf_map_getD_eq {l : List ℚ} {p : List ℕ}
    (hp : IsArgsortOf l p) :
    p.map (fun i => l.getD i 0) = (argsort l).map (fun i => l.getD i 0) := by
  have hperm1 : (p.map (fun i => l.getD i 0)).Perm l := by
    have h := hp.1.map (fun i => l.getD i 0)
    rwa [range_map_getD] at h
  have hperm2 : ((argsort l).map (fun i => l.getD i 0)).Perm l := by
    have h := (argsort_perm l).map (fun i => l.getD i 0)
    rwa [range_map_getD] at h
  exact List.eq_of_perm_of_sorted (hperm1.trans hperm2.symm) hp.2
    (argsort_map_sorted l)

theorem isArgsortOf_eq_argsort {l : List ℚ} {p : List ℕ}
    (hp : IsArgsortOf l p) (hnd : l.Nodup) : p = argsort l := by
  have hmapeq := isArgsortOf_map_getD_eq hp
  have hlen : p.length = (argsort l).length := by
    rw [hp.1.length_eq, (argsort_perm l).length_eq, List.length_range]
  apply List.ext_getElem hlen
  intro j h1 h2
  have hpj : p[j] < l.length := by
    have hm : p[j] ∈ p := List.getElem_mem h1
    have h := hp.1.mem_iff.mp hm
    simpa using h
  have hqj : (argsort l)[j] < l.length := mem_argsort_lt (List.getElem_mem h2)
  have hm1 : j < (p.map (fun i => l.getD i 0)).length := by simpa using h1
  have hm2 : j < ((argsort l).map (fun i => l.getD i 0)).length := by
    simpa using h2
  have e1 : (p.map (fun i => l.getD i 0)).getD j 0 = l.getD p[j] 0 := by
    rw [List.getD_eq_getElem _ 0 hm1, List.getElem_map]
  have e2 : ((argsort l).map (fun i => l.getD i 0)).getD j 0 =
      l.getD ((argsort l)[j]) 0 := by
    rw [List.getD_eq_getElem _ 0 hm2, List.getElem_map]
  have hv : l.getD p[j] 0 = l.getD ((argsort l)[j]) 0 := by
    rw [← e1, ← e2, hmapeq]
  rw [List.getD_eq_getElem l 0 hpj, List.getD_eq_getElem l 0 hqj] at hv
  have hinj := List.nodup_iff_injective_get.mp hnd
  have hfin : (⟨p[j], hpj⟩ : Fin l.length) = ⟨(argsort l)[j], hqj⟩ := by
    apply hinj
    simpa [List.get_eq_getElem] using hv
  exact congrArg Fin.val hfin

theorem keepWith_map {α : Type} [Inhabited α] (L : α → ℚ) (k : ℕ)
    (p : List ℕ) (pool : List α) (hmem : ∀ i ∈ p, i < pool.length) :
    (keepWith k p pool).map L =
      (p.map (fun i => (pool.map L).getD i 0)).take k := by
  unfold keepWith
  rw [filterMap_eq_map_getD _ _ (fun i hi => hmem i (List.mem_of_mem_take hi))]
  rw [List.map_map, ← List.map_take]
  apply List.map_congr_left
  intro i hi
  have hlt : i < pool.length := hmem i (List.mem_of_mem_take hi)
  have h2 : i < (pool.map L).length := by simpa using hlt
  show L (pool.getD i default) = (pool.map L).getD i 0
  rw [List.getD_eq_getElem pool default hlt, List.getD_eq_getElem _ 0 h2,
    List.getElem_map]

/-- C2 counterexample: the pruning of line 400 is only guaranteed to use
some index list satisfying the np.argsort contract; on the tied losses
[2, 2, 3, 4] the permutation [1, 0, 2, 3] satisfies that contract (numpy
default quicksort is not stable, so it may return it), yet pruning with it
at rung 0 of bracket s = 0 keeps configuration 20 instead of the original
first configuration 10 that the claimed stable tie-break would keep. -/
theorem rung_prune_tie_order_cx :
    IsArgsortOf [2, 2, 3, 4] [1, 0, 2, 3] ∧
    keepWith (keepCount 0 0) [1, 0, 2, 3] ([10, 20, 30, 40] : List ℚ) ≠
      specKeep (specCount 0 0) [2, 2, 3, 4] ([10, 20, 30, 40] : List ℚ) := by
  refine ⟨⟨by decide, by decide⟩, ?_⟩
  rw [keepCount_vals.1, specCount_eq_keepCount 0 0 (by decide) (by decide),
    keepCount_vals.1]
  decide

/-- C2 (amended): at the end of every rung i of every bracket s, for every
index list p that np.argsort may return on the current losses (its contract:
a permutation of the indices along which the losses are ascending), the
surviving pool holds the floor(n_i/eta) lowest-loss configurations of the
current pool with n_i = round(n * eta^(-i)), ranked ascending by loss: its
losses are exactly those of the stable spec-side selection, and whenever the
losses are pairwise distinct the surviving pool is exactly the stable
selection (ties broken by original sample order); the relative order of
tied losses is not guaranteed, since numpy default quicksort is not
stable. -/
theorem rung_prune_lowest_losses {α : Type} [Inhabited α] (s i : ℕ)
    (hs : s ≤ s_max) (hi : i ≤ s) (L : α → ℚ) (pool : List α) (p : List ℕ)
    (hp : IsArgsortOf (pool.map L) p) :
    (keepWith (keepCount s i) p pool).map L =
      (specKeep (specCount s i) (pool.map L) pool).map L ∧
    ((pool.map L).Nodup →
      keepWith (keepCount s i) p pool =
        specKeep (specCount s i) (pool.map L) pool) := by
  rw [s_max_eq] at hs
  have hsc : specCount s i = keepCount s i := specCount_eq_keepCount s i hs hi
  have hlenp : ∀ j ∈ p, j < pool.length := by
    intro j hj
    have h := hp.1.mem_iff.mp hj
    simpa using h
  have harg : ∀ j ∈ argsort (pool.map L), j < pool.length := by
    intro j hj
    have h := mem_argsort_lt hj
    simpa using h
  have hkeep : keep (keepCount s i) (pool.map L) pool =
      specKeep (keepCount s i) (pool.map L) pool :=
    keep_eq_specKeep _ _ _ (by simp)
  have hkw : keep (keepCount s i) (pool.map L) pool =
      keepWith (keepCount s i) (argsort (pool.map L)) pool := rfl
  constructor
  · rw [hsc, ← hkeep, hkw, keepWith_map L _ _ _ hlenp,
      keepWith_map L _ _ _ harg, isArgsortOf_map_getD_eq hp]
  · intro hnd
    rw [hsc, ← hkeep, isArgsortOf_eq_argsort hp hnd, hkw]

/-- Witness for the amended C2 at bracket s = 3, rung 0, on a concrete pool
with a tied pair of losses, pruned through a contract-satisfying
permutation that lists the tied indices in reverse order. -/
theorem rung_prune_lowest_losses_w :
    (3 ≤ s_max ∧ (0 : ℕ) ≤ 3 ∧
      IsArgsortOf (([5, 2, 2, 7] : List ℚ).map (fun q => q)) [2, 1, 0, 3]) ∧
    ((keepWith (keepCount 3 0) [2, 1, 0, 3] ([5, 2, 2, 7] : List ℚ)).map
        (fun q => q) =
      (specKeep (specCount 3 0) (([5, 2, 2, 7] : List ℚ).map (fun q => q))
        [5, 2, 2, 7]).map (fun q => q) ∧
    ((([5, 2, 2, 7] : List ℚ).map (fun q => q)).Nodup →
      keepWith (keepCount 3 0) [2, 1, 0, 3] ([5, 2, 2, 7] : List ℚ) =
        specKeep (specCount 3 0) (([5, 2, 2, 7] : List ℚ).map (fun q => q))
          [5, 2, 2, 7])) :=
  ⟨⟨by rw [s_max_eq], by decide, by constructor <;> decide⟩,
    rung_prune_lowest_losses 3 0 (by rw [s_max_eq]) (by decide)
      (fun q => q) [5, 2, 2, 7] [2, 1, 0, 3] (by constructor <;> decide)⟩

/-- One evaluation as seen by the SearchState and the Logger,
lines 388-397.  The state is (nevals, best_val_acc, log) and an evaluation
is ev = (time_spent, val_acc): nevals grows by time_spent/60, best_val_acc
is raised when the new accuracy beats it, and exactly one record
(nevals, best_val_acc) is appended to hyperband_evals.txt. -/
def recordStep (st : ℚ × ℚ × List (ℚ × ℚ)) (ev : ℚ × ℚ) :
    ℚ × ℚ × List (ℚ × ℚ) :=
  (st.1 + ev.1 / 60,
    if ev.2 > st.2.1 then ev.2 else st.2.1,
    st.2.2 ++ [(st.1 + ev.1 / 60, if ev.2 > st.2.1 then ev.2 else st.2.1)])

/-- The whole search as seen by SearchState and Logger: nevals and
best_val_acc are initialized once at lines 354-355 (to 0 and 0, log empty)
and every evaluation of every rung of every bracket then passes through
recordStep in order, with no reset in between. -/
def runSearch (evs : List (ℚ × ℚ)) : ℚ × ℚ × List (ℚ × ℚ) :=
  evs.foldl recordStep (0, 0, [])

theorem foldl_recordStep_best_le (l : List (ℚ × ℚ)) :
    ∀ st : ℚ × ℚ × List (ℚ × ℚ), st.2.1 ≤ (l.foldl recordStep st).2.1 := by
  induction l with
  | nil => intro st; exact le_refl _
  | cons ev rest ih =>
    intro st
    refine le_trans ?_ (ih (recordStep st ev))
    show st.2.1 ≤ (if ev.2 > st.2.1 then ev.2 else st.2.1)
    split_ifs with h
    · exact le_of_lt h
    · exact le_refl _

/-- C6: the best-score tracker best_val_acc (updated at lines 390-392) is
monotone non-decreasing in accuracy across the entire sequence of
evaluations of the whole search, whatever that sequence is, hence
regardless of the order in which brackets are processed. -/
theorem best_tracker_monotone (l₁ l₂ : List (ℚ × ℚ)) :
    (runSearch l₁).2.1 ≤ (runSearch (l₁ ++ l₂)).2.1 := by
  unfold runSearch
  rw [List.foldl_append]
  exact foldl_recordStep_best_le l₂ _

theorem foldl_recordStep_nevals (l : List (ℚ × ℚ)) :
    ∀ st : ℚ × ℚ × List (ℚ × ℚ),
      (l.foldl recordStep st).1 = st.1 + (l.map (fun e => e.1)).sum / 60 := by
  induction l with
  | nil => intro st; simp
  | cons ev rest ih =>
    intro st
    rw [List.foldl_cons, ih]
    show st.1 + ev.1 / 60 + _ = _
    rw [List.map_cons, List.sum_cons]
    ring

theorem foldl_recordStep_log (l : List (ℚ × ℚ)) :
    ∀ st : ℚ × ℚ × List (ℚ × ℚ), ∃ t : List (ℚ × ℚ),
      (l.foldl recordStep st).2.2 = st.2.2 ++ t ∧ t.length = l.length := by
  induction l with
  | nil => intro st; exact ⟨[], by simp, rfl⟩
  | cons ev rest ih =>
    intro st
    obtain ⟨t, ht, hlen⟩ := ih (recordStep st ev)
    refine ⟨[(st.1 + ev.1 / 60, if ev.2 > st.2.1 then ev.2 else st.2.1)] ++ t,
      ?_, by simp [hlen]⟩
    rw [List.foldl_cons, ht]
    show (st.2.2 ++ [_]) ++ t = st.2.2 ++ (_ ++ t)
    rw [List.append_assoc]

/-- C8: after every evaluation exactly one record (cumulative nevals, best
score so far) is appended to the log, so the log has one entry per
evaluation; nevals is the single accumulation sum of time_spent/60 over
all evaluations from the one initialization at lines 354-355; appending
further evaluations extends the log without rewriting the existing
records (never reset). -/
theorem log_append_once_per_eval (evs : List (ℚ × ℚ)) :
    (runSearch evs).2.2.length = evs.length ∧
    (runSearch evs).1 = (evs.map (fun e => e.1)).sum / 60 ∧
    (∀ ev, (runSearch (evs ++ [ev])).2.2 =
      (runSearch evs).2.2 ++
        [((runSearch (evs ++ [ev])).1, (runSearch (evs ++ [ev])).2.1)]) ∧
    (∀ evs₂, (runSearch (evs ++ evs₂)).2.2.take evs.length =
      (runSearch evs).2.2) := by
  have hlen : ∀ l : List (ℚ × ℚ), (runSearch l).2.2.length = l.length := by
    intro l
    obtain ⟨t, ht, hl⟩ := foldl_recordStep_log l (0, 0, [])
    show (l.foldl recordStep (0, 0, [])).2.2.length = _
    rw [ht]
    simp [hl]
  refine ⟨hlen evs, ?_, ?_, ?_⟩
  · show (evs.foldl recordStep (0, 0, [])).1 = _
    rw [foldl_recordStep_nevals]
    ring
  · intro ev
    have hA : runSearch (evs ++ [ev]) = recordStep (runSearch evs) ev := by
      unfold runSearch
      rw [List.foldl_append]
      rfl
    rw [hA]
    rfl
  · intro evs₂
    show ((evs ++ evs₂).foldl recordStep (0, 0, [])).2.2.take evs.length = _
    rw [List.foldl_append]
    obtain ⟨t, ht, hl⟩ :=
      foldl_recordStep_log evs₂ (evs.foldl recordStep (0, 0, []))
    rw [ht]
    have hle : (runSearch evs).2.2.length = evs.length := hlen evs
    rw [← hle]
    exact List.take_left _ _

/-- Number of convolutional filters: 10 + int(90*x[0]) at line 313.  The
argument of int() is non-negative on [0,1), so truncation is the floor. -/
noncomputable def nfilters (x : ℝ) : ℤ := 10 + ⌊90 * x⌋

/-- Training batch size: int(pow(2.0, 4.0 + 4.0*x[1])) at line 314. -/
noncomputable def batch_size_train (x : ℝ) : ℤ := ⌊(2 : ℝ) ^ ((4 : ℝ) + 4 * x)⌋

/-- Momentum factor: float(x[2]) at line 315. -/
def M (x : ℝ) : ℝ := x

/-- Learning rate: float(pow(10.0, -2 + 1.5*x[3])) at line 316. -/
noncomputable def LR (x : ℝ) : ℝ := (10 : ℝ) ^ ((-2 : ℝ) + 1.5 * x)

/-- Configuration sampler, lines 310-318, as a function of the vector of
four uniform draws. -/
noncomputable def get_random_hyperparameter_configuration (x : Fin 4 → ℝ) :
    ℤ × ℤ × ℝ × ℝ :=
  (nfilters (x 0), batch_size_train (x 1), M (x 2), LR (x 3))

theorem rpow_two_nat (m : ℕ) : (2 : ℝ) ^ ((m : ℕ) : ℝ) = (2 : ℝ) ^ m :=
  Real.rpow_natCast 2 m

theorem batch_bounds_aux (x : ℝ) (h0 : 0 ≤ x) (h1 : x < 1) :
    16 ≤ batch_size_train x ∧ batch_size_train x ≤ 255 := by
  have h2 : (1 : ℝ) < 2 := by norm_num
  have h16 : (2 : ℝ) ^ ((4 : ℕ) : ℝ) = 16 := by
    rw [rpow_two_nat]
    norm_num
  have h256 : (2 : ℝ) ^ ((8 : ℕ) : ℝ) = 256 := by
    rw [rpow_two_nat]
    norm_num
  constructor
  · apply Int.le_floor.mpr
    push_cast
    calc (16 : ℝ) = (2 : ℝ) ^ ((4 : ℕ) : ℝ) := h16.symm
      _ ≤ (2 : ℝ) ^ ((4 : ℝ) + 4 * x) := by
          apply (Real.rpow_le_rpow_left_iff h2).mpr
          push_cast
          linarith
  · have hlt : batch_size_train x < 256 := by
      apply Int.floor_lt.mpr
      push_cast
      calc (2 : ℝ) ^ ((4 : ℝ) + 4 * x) < (2 : ℝ) ^ ((8 : ℕ) : ℝ) := by
            apply (Real.rpow_lt_rpow_left_iff h2).mpr
            push_cast
            linarith
        _ = 256 := h256
    omega

/-- C9 counterexample: at draw x = 1/8 the batch size is
int(2^(4 + 4/8)) = int(sqrt(512)) = 22, which is not a power of two. -/
theorem batch_size_not_pow2_cx :
    batch_size_train (1 / 8) = 22 ∧
      ¬∃ j : ℕ, (2 : ℤ) ^ j = batch_size_train (1 / 8) := by
  have h45 : (4 : ℝ) + 4 * (1 / 8 : ℝ) = (9 : ℝ) / 2 := by norm_num
  have h29 : (2 : ℝ) ^ ((9 : ℝ)) = 512 := by
    rw [show (9 : ℝ) = ((9 : ℕ) : ℝ) by norm_num, rpow_two_nat]
    norm_num
  have hsq : (2 : ℝ) ^ ((9 : ℝ) / 2) = Real.sqrt 512 := by
    rw [show (9 : ℝ) / 2 = (9 : ℝ) * (1 / 2) by norm_num,
      Real.rpow_mul (by norm_num : (0 : ℝ) ≤ 2), h29, Real.sqrt_eq_rpow]
  have hfl : ⌊Real.sqrt (512 : ℝ)⌋ = 22 := by
    rw [Int.floor_eq_iff]
    constructor
    · push_cast
      rw [show (22 : ℝ) = Real.sqrt (22 ^ 2) by rw [Real.sqrt_sq (by norm_num)]]
      exact Real.sqrt_le_sqrt (by norm_num)
    · push_cast
      rw [show (22 : ℝ) + 1 = Real.sqrt (23 ^ 2) by
        rw [Real.sqrt_sq (by norm_num)]; norm_num]
      exact Real.sqrt_lt_sqrt (by norm_num) (by norm_num)
  have hval : batch_size_train (1 / 8) = 22 := by
    show ⌊(2 : ℝ) ^ ((4 : ℝ) + 4 * (1 / 8 : ℝ))⌋ = 22
    rw [h45, hsq, hfl]
  refine ⟨hval, ?_⟩
  rintro ⟨j, hj⟩
  rw [hval] at hj
  have hj5 : j < 5 := by
    by_contra hge
    push_neg at hge
    have h32 : (2 : ℤ) ^ 5 ≤ 2 ^ j := pow_le_pow_right₀ (by norm_num) hge
    omega
  interval_cases j <;> norm_num at hj

/-- C9 (amended): for every draw x in [0,1) the training batch size is the
truncation of 2^(4 + 4x) and is an integer in [16, 255]; it is not in
general a power of two. -/
theorem batch_size_trunc_bounds (x : ℝ) (h0 : 0 ≤ x) (h1 : x < 1) :
    batch_size_train x = ⌊(2 : ℝ) ^ ((4 : ℝ) + 4 * x)⌋ ∧
    16 ≤ batch_size_train x ∧ batch_size_train x ≤ 255 :=
  ⟨rfl, batch_bounds_aux x h0 h1⟩

/-- Witness for the amended C9 at the draw x = 0. -/
theorem batch_size_trunc_bounds_w :
    ((0 : ℝ) ≤ 0 ∧ (0 : ℝ) < 1) ∧
    (batch_size_train 0 = ⌊(2 : ℝ) ^ ((4 : ℝ) + 4 * (0 : ℝ))⌋ ∧
      16 ≤ batch_size_train 0 ∧ batch_size_train 0 ≤ 255) :=
  ⟨⟨le_refl 0, by norm_num⟩, batch_size_trunc_bounds 0 (le_refl 0) (by norm_num)⟩

/-- C10: for every draw in [0,1) of each coordinate, the sampler outputs
satisfy nfilters in [10, 99] (100 is never attained), batch size in
[16, 255] (256 is never attained), M in [0, 1), LR in [10^-2, 10^-0.5);
and each of the four transforms is monotone non-decreasing in its input
coordinate. -/
theorem sampler_bounds_monotone :
    (∀ x : ℝ, 0 ≤ x → x < 1 →
      (10 ≤ nfilters x ∧ nfilters x ≤ 99) ∧
      (16 ≤ batch_size_train x ∧ batch_size_train x ≤ 255) ∧
      (0 ≤ M x ∧ M x < 1) ∧
      ((10 : ℝ) ^ ((-2 : ℝ)) ≤ LR x ∧ LR x < (10 : ℝ) ^ ((-(1 / 2) : ℝ)))) ∧
    (∀ x y : ℝ, x ≤ y →
      nfilters x ≤ nfilters y ∧ batch_size_train x ≤ batch_size_train y ∧
      M x ≤ M y ∧ LR x ≤ LR y) := by
  have h10 : (1 : ℝ) < 10 := by norm_num
  constructor
  · intro x h0 h1
    refine ⟨⟨?_, ?_⟩, batch_bounds_aux x h0 h1, ⟨h0, h1⟩, ?_, ?_⟩
    · show 10 ≤ 10 + ⌊90 * x⌋
      have : (0 : ℤ) ≤ ⌊90 * x⌋ := Int.floor_nonneg.mpr (by linarith)
      omega
    · show 10 + ⌊90 * x⌋ ≤ 99
      have : ⌊90 * x⌋ < 90 := Int.floor_lt.mpr (by push_cast; linarith)
      omega
    · apply (Real.rpow_le_rpow_left_iff h10).mpr
      linarith
    · apply (Real.rpow_lt_rpow_left_iff h10).mpr
      linarith
  · intro x y hxy
    refine ⟨?_, ?_, hxy, ?_⟩
    · have : ⌊90 * x⌋ ≤ ⌊90 * y⌋ := Int.floor_mono (by linarith)
      show 10 + ⌊90 * x⌋ ≤ 10 + ⌊90 * y⌋
      omega
    · exact Int.floor_mono ((Real.rpow_le_rpow_left_iff (by norm_num)).mpr
        (by linarith))
    · exact (Real.rpow_le_rpow_left_iff h10).mpr (by linarith)

/-- Witness for C10 at the draws x = 0 and the pair (0, 1). -/
theorem sampler_bounds_monotone_w :
    ((0 : ℝ) ≤ 0 ∧ (0 : ℝ) < 1 ∧
      ((10 ≤ nfilters 0 ∧ nfilters 0 ≤ 99) ∧
        (16 ≤ batch_size_train 0 ∧ batch_size_train 0 ≤ 255) ∧
        (0 ≤ M 0 ∧ M 0 < 1) ∧
        ((10 : ℝ) ^ ((-2 : ℝ)) ≤ LR 0 ∧
          LR 0 < (10 : ℝ) ^ ((-(1 / 2) : ℝ))))) ∧
    ((0 : ℝ) ≤ (1 : ℝ) ∧
      (nfilters 0 ≤ nfilters 1 ∧ batch_size_train 0 ≤ batch_size_train 1 ∧
        M 0 ≤ M 1 ∧ LR 0 ≤ LR 1)) :=
  ⟨⟨le_refl 0, by norm_num,
      sampler_bounds_monotone.1 0 (le_refl 0) (by norm_num)⟩,
    ⟨by norm_num, sampler_bounds_monotone.2 0 1 (by norm_num)⟩⟩

end Hyperband
